import Mathlib

/-!
Verification development for the `epd_image` conversion tool (`main.c`).

The program converts a decoded raster image (1/4/8/24/32 bits per pixel,
optionally palette-indexed) into one or two packed bit planes for e-paper
displays.  This file gives a shallow embedding of the pixel sampler, the
color classifiers (`GetYellowPixel`, `GetRedPixel`, `GetBWYRPixel`,
`GetGrayPixel`), the plane packers (`MakeC_BW`, `MakeC_3CLR`, `MakeC_4CLR`,
`MakeC_4GRAY`, byte-emission part only — the hex formatting is I/O glue),
and the geometric transforms (`MirrorBMP`, `FlipBMP`, `RotateImage`),
and proves or refutes the specified properties about them.

Modelling conventions:
* byte buffers are total functions `Nat → Nat`; a well-formed buffer has all
  values `< 256` (stated as a hypothesis where a theorem needs it);
* C `int` arithmetic on sampled channel values is modelled over `Int` where
  subtraction occurs (`r - b > 32` and similar), and over `Nat` where all
  operands are non-negative;
* `uint8_t` narrowing assignments are modelled with an explicit `% 256`;
* the scratch buffer of the 4-bpp rotation is `Int → Nat` because the C code
  forms pointers below the allocation start; freshly allocated memory is
  modelled as zero-filled.
-/

namespace EpdImage

/-- Palette of the global `ucRed` / `ucGreen` / `ucBlue` tables: three
256-entry byte tables, modelled as total functions. -/
structure Pal where
  red : Nat → Nat
  green : Nat → Nat
  blue : Nat → Nat

/-- Result of reading one logical pixel: the raw index byte `uc` (palette
index for 4/8 bpp sources, 0 otherwise) and the 8-bit `r`, `g`, `b` values. -/
structure Sampled where
  uc : Nat
  r : Nat
  g : Nat
  b : Nat
deriving DecidableEq, Repr

/-- Pixel sampling `switch (iBpp)` common to `GetYellowPixel`,
`GetRedPixel` and `GetBWYRPixel` (and to cases 4/8/24/32 of
`GetGrayPixel`): nibble or byte palette lookup for 4/8 bpp, direct
B,G,R bytes for 24/32 bpp; any other depth leaves all locals at 0. -/
def sampleRGB (bpp x y : Nat) (data : Nat → Nat) (pitch : Nat) (pal : Pal) : Sampled :=
  match bpp with
  | 4 =>
      let uc0 := data (y * pitch + x / 2)
      let uc := (if x % 2 = 0 then uc0 >>> 4 else uc0) &&& 0xf
      ⟨uc, pal.red uc, pal.green uc, pal.blue uc⟩
  | 8 =>
      let uc := data (y * pitch + x)
      ⟨uc, pal.red uc, pal.green uc, pal.blue uc⟩
  | 24 | 32 =>
      let off := y * pitch + x * bpp / 8
      ⟨0, data (off + 2), data (off + 1), data off⟩
  | _ => ⟨0, 0, 0, 0⟩

/-- Embedding of `GetYellowPixel` (main.c): match a pixel to
black (00), white (01) or yellow (1x).  Note that the result bits are
OR-ed into `uc`, which still holds the palette index for 4/8 bpp
sources. -/
def GetYellowPixel (x y : Nat) (data : Nat → Nat) (pitch bpp : Nat) (pal : Pal) : Nat :=
  let s := sampleRGB bpp x y data pitch pal
  let gr := (s.b + s.r + s.g * 2) / 4
  if s.r > s.b ∧ s.g > s.b then
    if gr < 100 ∧ s.r < 80 then
      s.uc
    else
      if (s.r : Int) - s.b > 32 ∧ (s.g : Int) - s.b > 32 then
        s.uc ||| 2
      else
        s.uc ||| 1
  else
    if gr ≥ 100 then s.uc ||| 1 else s.uc

/-- Embedding of `GetRedPixel` (main.c): match a pixel to black (00),
white (01) or red (1x), accumulated in the dedicated output `ucOut`
initialised to 0. -/
def GetRedPixel (x y : Nat) (data : Nat → Nat) (pitch bpp : Nat) (pal : Pal) : Nat :=
  let s := sampleRGB bpp x y data pitch pal
  let gr := (s.b + s.r + s.g * 2) / 4
  if s.r > s.g ∧ s.r > s.b then
    if gr < 100 ∧ s.r < 80 then
      0
    else
      if (s.r : Int) - s.b > 32 ∧ (s.r : Int) - s.g > 32 then
        (0 : Nat) ||| 2
      else
        (0 : Nat) ||| 1
  else
    if gr ≥ 100 then (0 : Nat) ||| 1 else 0

/-- Embedding of `GetBWYRPixel` (main.c): match a pixel to black (00),
white (01), yellow (10) or red (11). -/
def GetBWYRPixel (x y : Nat) (data : Nat → Nat) (pitch bpp : Nat) (pal : Pal) : Nat :=
  let s := sampleRGB bpp x y data pitch pal
  let gr := (s.b + s.r + s.g * 2) / 4
  if s.r > s.b ∨ s.g > s.b then
    if gr < 100 ∧ s.r < 80 ∧ s.g < 80 then
      0
    else
      if (s.r : Int) - s.b > 32 ∧ (s.r : Int) - s.g > 32 then
        3
      else if (s.r : Int) - s.b > 32 ∧ (s.g : Int) - s.b > 32 then
        2
      else
        1
  else
    if gr ≥ 100 then 1 else 0

/-- Embedding of `GetGrayPixel` (main.c): return a pixel as a 2-bit
grayscale value.  For a 1-bpp source the byte is shifted right by
`x % 8` and OR-ed with its own double (no masking of the extracted
bit, exactly as in the source); for the other depths the gray value is
`(b + g + 2*r) / 4` and the code is its top two bits. -/
def GetGrayPixel (x y : Nat) (data : Nat → Nat) (pitch bpp : Nat) (pal : Pal) : Nat :=
  match bpp with
  | 1 =>
      let uc := data (y * pitch + x / 8)
      let uc := uc >>> (x % 8)
      (uc ||| uc <<< 1) % 256
  | 4 | 8 | 24 | 32 =>
      let s := sampleRGB bpp x y data pitch pal
      let gray := (s.b + s.g + s.r * 2) / 4
      (gray >>> 6) % 256
  | _ => 0

/-- Derived gray value exactly as the specification words it:
`gray = (b + r + 2*g) / 4` (luma-weighted toward green). -/
def specGray (r g b : Nat) : Nat := (b + r + 2 * g) / 4

/-- Decision chain of the Black/White/Yellow/Red classifier exactly as the
claim words it: when `r > b` or `g > b`, black if `gray < 90` OR
(`r < 80` and `g < 80`); else red if `r-b > 32` and `r-g > 70`; else
yellow if `r-b > 32` and `g-b > 32`; else white.  Otherwise white iff
`gray ≥ 100`. -/
def specChainBWYR (r g b : Nat) : Nat :=
  if r > b ∨ g > b then
    if specGray r g b < 90 ∨ (r < 80 ∧ g < 80) then 0
    else if (r : Int) - b > 32 ∧ (r : Int) - g > 70 then 3
    else if (r : Int) - b > 32 ∧ (g : Int) - b > 32 then 2
    else 1
  else
    if specGray r g b ≥ 100 then 1 else 0

/-- Decision chain of the Black/White/Red classifier exactly as the claim
words it: the accent channel `r` is dominant when `r > b`; then black if
`gray < 100` and `r < 80`, else red if `r-b > 32` and `r-g > 32`, else
white; when not dominant, white iff `gray ≥ 100`. -/
def specChainBWR (r g b : Nat) : Nat :=
  if r > b then
    if specGray r g b < 100 ∧ r < 80 then 0
    else if (r : Int) - b > 32 ∧ (r : Int) - g > 32 then 2
    else 1
  else
    if specGray r g b ≥ 100 then 1 else 0

/-- Decision chain of the Black/White/Yellow classifier exactly as the
claim words it: the accent pair `r`,`g` is jointly dominant over `b`;
then black if `gray < 100` and `r < 80`, else yellow if `r-b > 32` and
`g-b > 32`, else white; when not dominant, white iff `gray ≥ 100`. -/
def specChainBWY (r g b : Nat) : Nat :=
  if r > b ∧ g > b then
    if specGray r g b < 100 ∧ r < 80 then 0
    else if (r : Int) - b > 32 ∧ (g : Int) - b > 32 then 2
    else 1
  else
    if specGray r g b ≥ 100 then 1 else 0

/-- Corrected decision chain of `GetBWYRPixel` as implemented: when
`r > b` or `g > b`, black iff `gray < 100` AND `r < 80` AND `g < 80`;
else red if `r-b > 32` and `r-g > 32`; else yellow if `r-b > 32` and
`g-b > 32`; else white.  Otherwise white iff `gray ≥ 100`, where
`gray = (b + r + 2*g) / 4`. -/
def chainBWYR (r g b : Nat) : Nat :=
  if r > b ∨ g > b then
    if specGray r g b < 100 ∧ r < 80 ∧ g < 80 then 0
    else if (r : Int) - b > 32 ∧ (r : Int) - g > 32 then 3
    else if (r : Int) - b > 32 ∧ (g : Int) - b > 32 then 2
    else 1
  else
    if specGray r g b ≥ 100 then 1 else 0

/-- Corrected decision chain of `GetRedPixel` as implemented: red is
dominant only when `r > g` AND `r > b`; the rest of the chain is as the
claim words it. -/
def chainBWR (r g b : Nat) : Nat :=
  if r > g ∧ r > b then
    if specGray r g b < 100 ∧ r < 80 then 0
    else if (r : Int) - b > 32 ∧ (r : Int) - g > 32 then 2
    else 1
  else
    if specGray r g b ≥ 100 then 1 else 0

/-! ### Plane packing -/

/-- Output format options enumeration of main.c. -/
def OPTION_BW : Nat := 0
/-- Output format option Black/White/Red. -/
def OPTION_BWR : Nat := 1
/-- Output format option Black/White/Yellow. -/
def OPTION_BWY : Nat := 2
/-- Output format option Black/White/Yellow/Red. -/
def OPTION_BWYR : Nat := 3
/-- Output format option 2-bit grayscale. -/
def OPTION_4GRAY : Nat := 4

/-- Dword alignment of a BMP row pitch: `(p + 3) & 0xfffc`, exactly as in
the source (note the 16-bit mask constant, which also truncates any pitch
of 65536 bytes or more). -/
def alignDword (p : Nat) : Nat := (p + 3) &&& 0xfffc

/-- Source-row pitch `iSrcPitch = dword_align(ceil(w*bpp/8))`, computed
identically in every conversion and transform routine of main.c. -/
def bmpPitch (w bpp : Nat) : Nat := alignDword ((w * bpp + 7) / 8)

/-- Packing loop body shared (textually identical up to `codeBits`) by
`MakeC_BW`, `MakeC_4GRAY`, `MakeC_3CLR` (`bits = 1`, `per = 8`) and
`MakeC_4CLR` (`bits = 2`, `per = 4`): `uc` is the byte accumulator
(a `uint8_t`, hence the `% 256`), `cnt` the number of codes already
accumulated (`x & (per-1)` in the source); a byte is emitted every
`per` codes and at the end of the row, the final partial byte being
left-shifted so its used bits occupy the most significant positions. -/
def packRowAux (bits per : Nat) : Nat → Nat → List Nat → List Nat
  | _, _, [] => []
  | uc, cnt, c :: rest =>
      let uc2 := ((uc <<< bits) % 256) ||| c
      match rest with
      | [] =>
          if cnt + 1 = per then [uc2]
          else [(uc2 <<< ((per - (cnt + 1)) * bits)) % 256]
      | _ :: _ =>
          if cnt + 1 = per then uc2 :: packRowAux bits per 0 0 rest
          else packRowAux bits per uc2 (cnt + 1) rest

/-- Packing of one output row of pixel codes (accumulator starts at 0,
as `uc = 0` at the top of each `y` iteration in the source). -/
def packRow (bits per : Nat) (codes : List Nat) : List Nat :=
  packRowAux bits per 0 0 codes

/-- Byte emission of one whole plane: the double loop of the `MakeC_*`
routines with the per-pixel classifier abstracted as `code`.  Each row is
packed independently (the accumulator is reset at every row start). -/
def planeBytes (bits per w h : Nat) (code : Nat → Nat → Nat) : List Nat :=
  ((List.range h).map (fun y => packRow bits per ((List.range w).map (fun x => code x y)))).flatten

/-- Byte stream emitted by `MakeC_BW` (main.c): one 1-bit plane, the code
of each pixel being the MSB of its 2-bit gray value (`ucPixel >> 1`). -/
def MakeC_BW (data : Nat → Nat) (w h bpp : Nat) (pal : Pal) : List Nat :=
  planeBytes 1 8 w h (fun x y => GetGrayPixel x y data (bmpPitch w bpp) bpp pal >>> 1)

/-- Byte streams of the two planes emitted by `MakeC_4GRAY` (main.c):
plane `i` receives bit `i` of each pixel's 2-bit gray code. -/
def MakeC_4GRAY (data : Nat → Nat) (w h bpp : Nat) (pal : Pal) : List Nat × List Nat :=
  (planeBytes 1 8 w h (fun x y => (GetGrayPixel x y data (bmpPitch w bpp) bpp pal >>> 0) &&& 1),
   planeBytes 1 8 w h (fun x y => (GetGrayPixel x y data (bmpPitch w bpp) bpp pal >>> 1) &&& 1))

/-- Byte streams of the two planes emitted by `MakeC_3CLR` (main.c):
the classifier is `GetRedPixel` for `OPTION_BWR` and `GetYellowPixel`
otherwise; plane `i` receives bit `i` of each pixel's code. -/
def MakeC_3CLR (iType : Nat) (data : Nat → Nat) (w h bpp : Nat) (pal : Pal) :
    List Nat × List Nat :=
  let px := fun x y =>
    if iType = OPTION_BWR then GetRedPixel x y data (bmpPitch w bpp) bpp pal
    else GetYellowPixel x y data (bmpPitch w bpp) bpp pal
  (planeBytes 1 8 w h (fun x y => (px x y >>> 0) &&& 1),
   planeBytes 1 8 w h (fun x y => (px x y >>> 1) &&& 1))

/-- Byte stream emitted by `MakeC_4CLR` (main.c): one plane, four pixels
packed two bits at a time into each byte. -/
def MakeC_4CLR (data : Nat → Nat) (w h bpp : Nat) (pal : Pal) : List Nat :=
  planeBytes 2 4 w h (fun x y => GetBWYRPixel x y data (bmpPitch w bpp) bpp pal)

/-- Packing of a whole image given as a list of rows of pixel codes
(the PlanePacker contract of the specification): each row is packed
independently and the rows' bytes are concatenated. -/
def packPlane (bits per : Nat) (rows : List (List Nat)) : List Nat :=
  (rows.map (packRow bits per)).flatten

/-- MSB-first value of a group of codes, `acc = acc*2^bits + c` folded
left to right (the accumulator recurrence of the packing loop, without
the byte emission). -/
def packGroup (bits : Nat) (codes : List Nat) : Nat :=
  codes.foldl (fun acc c => acc * 2 ^ bits + c) 0

/-! ### Bit extraction (unpacking), specification side -/

/-- Extraction of the `per` MSB-first `bits`-wide codes of one byte. -/
def byteToCodes (bits : Nat) : Nat → Nat → List Nat
  | 0, _ => []
  | per + 1, v => v / 2 ^ (per * bits) % 2 ^ bits :: byteToCodes bits per (v % 2 ^ (per * bits))

/-- Bit-extraction of the first `w` codes of a packed row. -/
def unpackRowBytes (bits per w : Nat) (bytes : List Nat) : List Nat :=
  (bytes.flatMap (byteToCodes bits per)).take w

/-- Bit-extraction of a whole packed plane into its `h` rows of `w` codes,
each row occupying `ceil(w/per)` bytes. -/
def unpackPlane (bits per w h : Nat) (bytes : List Nat) : List (List Nat) :=
  (List.range h).map (fun y =>
    unpackRowBytes bits per w (((bytes.drop (y * ((w + per - 1) / per))).take ((w + per - 1) / per))))

/-- All-white palette, for concrete test images. -/
def palWhite : Pal := ⟨fun _ => 255, fun _ => 255, fun _ => 255⟩

/-- All-zero palette, for concrete test images. -/
def palZero : Pal := ⟨fun _ => 0, fun _ => 0, fun _ => 0⟩

/-- Concrete 2×2 8-bpp test image (dword-aligned pitch 4). -/
def testImage22 : Nat → Nat := fun i => [1, 2, 0, 0, 4, 5, 0, 0].getD i 0

/-- Concrete 4×4 4-bpp test image (dword-aligned pitch 4, two data bytes
and two padding bytes per row; pixel `(x,y)` holds the nibble `4*y+x`). -/
def testImage44 : Nat → Nat := fun i =>
  [0x01, 0x23, 0, 0,
   0x45, 0x67, 0, 0,
   0x89, 0xab, 0, 0,
   0xcd, 0xef, 0, 0].getD i 0

/-! ### Geometric transforms -/

/-- Table to flip the bit direction of a byte (`ucMirror` in main.c). -/
def ucMirror : List Nat :=
  [0, 128, 64, 192, 32, 160, 96, 224, 16, 144, 80, 208, 48, 176, 112, 240,
   8, 136, 72, 200, 40, 168, 104, 232, 24, 152, 88, 216, 56, 184, 120, 248,
   4, 132, 68, 196, 36, 164, 100, 228, 20, 148, 84, 212, 52, 180, 116, 244,
   12, 140, 76, 204, 44, 172, 108, 236, 28, 156, 92, 220, 60, 188, 124, 252,
   2, 130, 66, 194, 34, 162, 98, 226, 18, 146, 82, 210, 50, 178, 114, 242,
   10, 138, 74, 202, 42, 170, 106, 234, 26, 154, 90, 218, 58, 186, 122, 250,
   6, 134, 70, 198, 38, 166, 102, 230, 22, 150, 86, 214, 54, 182, 118, 246,
   14, 142, 78, 206, 46, 174, 110, 238, 30, 158, 94, 222, 62, 190, 126, 254,
   1, 129, 65, 193, 33, 161, 97, 225, 17, 145, 81, 209, 49, 177, 113, 241,
   9, 137, 73, 201, 41, 169, 105, 233, 25, 153, 89, 217, 57, 185, 121, 249,
   5, 133, 69, 197, 37, 165, 101, 229, 21, 149, 85, 213, 53, 181, 117, 245,
   13, 141, 77, 205, 45, 173, 109, 237, 29, 157, 93, 221, 61, 189, 125, 253,
   3, 131, 67, 195, 35, 163, 99, 227, 19, 147, 83, 211, 51, 179, 115, 243,
   11, 139, 75, 203, 43, 171, 107, 235, 27, 155, 91, 219, 59, 187, 123, 251,
   7, 135, 71, 199, 39, 167, 103, 231, 23, 151, 87, 215, 55, 183, 119, 247,
   15, 143, 79, 207, 47, 175, 111, 239, 31, 159, 95, 223, 63, 191, 127, 255]

/-- Bit-reversal of a byte through the `ucMirror` table lookup. -/
def mirrorByte (c : Nat) : Nat := ucMirror.getD c 0

/-- Nibble swap of a byte: `(c << 4) | (c >> 4)` narrowed to `uint8_t`. -/
def nibbleSwap (c : Nat) : Nat := ((c <<< 4) ||| (c >>> 4)) % 256

/-- One iteration of the inward-moving swap loops of `MirrorBMP` /
`FlipBMP`: exchange the `g`-byte groups at `s` and `d`, applying the
byte transform `t` to each moved byte. -/
def swapStep (t : Nat → Nat) (g s d : Nat) (buf : Nat → Nat) : Nat → Nat :=
  fun i =>
    if s ≤ i ∧ i < s + g then t (buf (d + (i - s)))
    else if d ≤ i ∧ i < d + g then t (buf (s + (i - d)))
    else buf i

/-- The inward-moving swap loop itself: `n` iterations, the source index
advancing by `g` and the destination index retreating by `g` each time. -/
def swapLoop (t : Nat → Nat) (g : Nat) : Nat → Nat → Nat → (Nat → Nat) → Nat → Nat
  | 0, _, _, buf => buf
  | n + 1, s, d, buf => swapLoop t g n (s + g) (d - g) (swapStep t g s d buf)

/-- Row iteration `for (y=0; y<h; y++)` applying a per-row buffer
operation, starting at row `y` with `cnt` rows to go. -/
def rowsFrom (f : Nat → (Nat → Nat) → Nat → Nat) : Nat → Nat → (Nat → Nat) → Nat → Nat
  | _, 0, buf => buf
  | y, cnt + 1, buf => rowsFrom f (y + 1) cnt (f y buf)

/-- Embedding of `MirrorBMP` (main.c): horizontal in-place mirror, by
bit depth.  For 1 bpp the mirror runs only when the width is a multiple
of 8 (otherwise the function does nothing); 32 bpp moves 4-byte words,
modelled byte-wise. -/
def MirrorBMP (w h bpp : Nat) (buf : Nat → Nat) : Nat → Nat :=
  let pitch := bmpPitch w bpp
  match bpp with
  | 1 =>
      if w % 8 = 0 then
        rowsFrom (fun y b => swapLoop mirrorByte 1 (w >>> 4) (y * pitch) (y * pitch + (w >>> 3) - 1) b) 0 h buf
      else buf
  | 4 =>
      rowsFrom (fun y b => swapLoop nibbleSwap 1 (w >>> 2) (y * pitch) (y * pitch + (w >>> 1) - 1) b) 0 h buf
  | 8 =>
      rowsFrom (fun y b => swapLoop id 1 (w >>> 1) (y * pitch) (y * pitch + w - 1) b) 0 h buf
  | 24 =>
      rowsFrom (fun y b => swapLoop id 3 (w >>> 1) (y * pitch) (y * pitch + (w - 1) * 3) b) 0 h buf
  | 32 =>
      rowsFrom (fun y b => swapLoop id 4 (w >>> 1) (y * pitch) (y * pitch + (w - 1) * 4) b) 0 h buf
  | _ => buf

/-- Embedding of `FlipBMP` (main.c): vertical in-place flip, swapping
whole `pitch`-byte rows top/bottom for `h/2` iterations. -/
def FlipBMP (w h bpp : Nat) (buf : Nat → Nat) : Nat → Nat :=
  let pitch := bmpPitch w bpp
  swapLoop id pitch (h / 2) 0 (pitch * (h - 1)) buf

/-- Inner `x` loop of the 4-bpp branch of `RotateImage`: reads two
vertically adjacent source bytes, swaps their nibble pairs, and writes
them to two adjacent destination rows of the scratch buffer; the
destination pointer `d` is an `Int` because the source code can move it
below the allocation start.  Returns the scratch buffer and the source
offset after the loop. -/
def rot4inner (px : Nat → Nat) (srcPitch dstPitch : Nat) :
    Nat → Nat → Int → (Int → Nat) → (Int → Nat) × Nat
  | 0, so, _, pT => (pT, so)
  | n + 1, so, d, pT =>
      let c1 := px so
      let c2 := px (so + srcPitch)
      let c3 := (c1 >>> 4) ||| (c2 &&& 0xf0)
      let c2b := ((c2 <<< 4) % 256) ||| (c1 &&& 0xf)
      let pT2 := Function.update (Function.update pT d c3) (d + dstPitch) c2b
      rot4inner px srcPitch dstPitch n (so + 1) (d + 2 * dstPitch) pT2

/-- Outer `y` loop (step 2) of the 4-bpp branch of `RotateImage`;
`cnt` counts the remaining iterations (`ceil(h/2)` at the start). -/
def rot4outer (px : Nat → Nat) (srcPitch dstPitch w h : Nat) :
    Nat → Nat → Nat → (Int → Nat) → Int → Nat
  | 0, _, _, pT => pT
  | cnt + 1, y, so, pT =>
      let d0 : Int := (((w - 1) / 2 : Nat) : Int) - (y : Int)
      let res := rot4inner px srcPitch dstPitch ((h + 1) >>> 1) so d0 pT
      rot4outer px srcPitch dstPitch w h cnt (y + 2) (res.2 + 2 * srcPitch) res.1

/-- Embedding of `RotateImage` (main.c).  Returns the new pixel buffer
and the reported width and height.  180° is flip-then-mirror in place;
for other non-zero angles only the 4-bpp depth transposes pixels (into a
zero-initialised scratch buffer copied back over the first
`iDstPitch*w` bytes); all other depths leave the pixels untouched.  For
90°/270° the width/height swap goes through a `uint8_t` temporary, hence
the `% 256` on the new height. -/
def RotateImage (rot : Nat) (px : Nat → Nat) (w h bpp : Nat) : (Nat → Nat) × Nat × Nat :=
  if rot = 0 then (px, w, h)
  else if rot = 180 then (MirrorBMP w h bpp (FlipBMP w h bpp px), w, h)
  else
    let srcPitch := bmpPitch w bpp
    let dstPitch := bmpPitch h bpp
    let px2 : Nat → Nat :=
      match bpp with
      | 4 =>
          let pT := rot4outer px srcPitch dstPitch w h ((h + 1) / 2) 0 0 (fun _ => 0)
          fun i => if i < dstPitch * w then pT i else px i
      | _ => px
    let px3 := if rot = 270 then MirrorBMP h w bpp (FlipBMP h w bpp px2) else px2
    if rot = 90 ∨ rot = 270 then (px3, h, w % 256) else (px3, w, h)

/-! ### Proof infrastructure predicates -/

/-- Well-formed byte buffer: every stored value fits in a byte. -/
def BufBounded (buf : Nat → Nat) : Prop := ∀ i, buf i < 256

/-- Index region touched by `swapLoop t g n s d`: the `n` source groups
walking up from `s` and the `n` destination groups walking down from `d`. -/
def InRegion (g : Nat) : Nat → Nat → Nat → Nat → Prop
  | 0, _, _, _ => False
  | n + 1, s, d, i => (s ≤ i ∧ i < s + g) ∨ (d ≤ i ∧ i < d + g) ∨ InRegion g n (s + g) (d - g) i

/-- A buffer operation is local to an index set `S` when it leaves
indices outside `S` unchanged and its values inside `S` depend only on
the buffer's values inside `S`. -/
def LocalTo (S : Nat → Prop) (F : (Nat → Nat) → Nat → Nat) : Prop :=
  (∀ buf i, ¬ S i → F buf i = buf i) ∧
  (∀ b1 b2, (∀ j, S j → b1 j = b2 j) → ∀ i, S i → F b1 i = F b2 i)

/-! ## Theorems -/

/-- Gray value of the specification, reassociated to the operand order
used throughout the source (`(b + r + g*2) >> 2`). -/
theorem specGray_eq (r g b : Nat) : specGray r g b = (b + r + g * 2) / 4 := by
  unfold specGray
  congr 1
  ring

/-- Auxiliary fact: bounds of the three sampled channel values, for every
bit depth, from byte-boundedness of the data buffer and the palette. -/
theorem sampleRGB_lt (bpp x y : Nat) (data : Nat → Nat) (pitch : Nat) (pal : Pal)
    (hdata : ∀ i, data i < 256)
    (hpal : ∀ i, pal.red i < 256 ∧ pal.green i < 256 ∧ pal.blue i < 256) :
    (sampleRGB bpp x y data pitch pal).r < 256 ∧
      (sampleRGB bpp x y data pitch pal).g < 256 ∧
      (sampleRGB bpp x y data pitch pal).b < 256 := by
  unfold sampleRGB
  split <;>
    first
      | exact ⟨(hpal _).1, (hpal _).2.1, (hpal _).2.2⟩
      | exact ⟨hdata _, hdata _, hdata _⟩
      | exact ⟨by norm_num, by norm_num, by norm_num⟩

/-- Auxiliary fact: the MSB of the 2-bit gray code of a byte-valued pixel
is 1 exactly when the red-weighted gray value reaches 128. -/
theorem grayCode_msb (r g b : Nat) (hr : r < 256) (hg : g < 256) (hb : b < 256) :
    ((((b + g + r * 2) / 4) >>> 6) % 256) >>> 1 =
      if 128 ≤ (b + g + 2 * r) / 4 then 1 else 0 := by
  rw [Nat.shiftRight_eq_div_pow, Nat.shiftRight_eq_div_pow,
    show (2 : Nat) ^ 6 = 64 by norm_num, show (2 : Nat) ^ 1 = 2 by norm_num,
    show 2 * r = r * 2 by ring]
  by_cases h : 128 ≤ (b + g + r * 2) / 4
  · rw [if_pos h]
    omega
  · rw [if_neg h]
    omega

/-- C1, counterexample.  The claim states that for a ≥4-bpp pixel the
Black/White code is 1 (white) iff `(b + r + 2*g)/4 ≥ 100`.  For the
24-bpp pixel `(r,g,b) = (110,110,110)` the spec gray is `110 ≥ 100`, so
the claim predicts the white code `1` (emitted byte `0x80` for a 1×1
image), but `MakeC_BW` emits the black byte `0x00`: the implementation
thresholds the MSB of `GetGrayPixel` at 128, not at 100. -/
theorem c1_counterexample :
    MakeC_BW (fun i => [110, 110, 110].getD i 0) 1 1 24 palWhite = [0] ∧
      100 ≤ specGray 110 110 110 := by
  constructor
  · decide
  · decide

/-- C1, amended.  For every pixel of a ≥4-bpp byte-valued source, the
1-bit code emitted by the Black/White conversion (`GetGrayPixel`'s MSB,
`ucPixel >> 1` in `MakeC_BW`) is 1 (white) iff the red-weighted gray
value `(b + g + 2*r) / 4` is at least 128, and 0 (black) otherwise. -/
theorem c1_amended (bpp x y : Nat) (data : Nat → Nat) (pitch : Nat) (pal : Pal)
    (hbpp : bpp = 4 ∨ bpp = 8 ∨ bpp = 24 ∨ bpp = 32)
    (hdata : ∀ i, data i < 256)
    (hpal : ∀ i, pal.red i < 256 ∧ pal.green i < 256 ∧ pal.blue i < 256) :
    GetGrayPixel x y data pitch bpp pal >>> 1 =
      if 128 ≤ ((sampleRGB bpp x y data pitch pal).b + (sampleRGB bpp x y data pitch pal).g
          + 2 * (sampleRGB bpp x y data pitch pal).r) / 4 then 1 else 0 := by
  obtain ⟨hr, hg, hb⟩ := sampleRGB_lt bpp x y data pitch pal hdata hpal
  rcases hbpp with rfl | rfl | rfl | rfl <;>
    simpa only [GetGrayPixel] using
      grayCode_msb _ _ _ hr hg hb

/-- C1, witness for the amended theorem at the constant-200 24-bpp pixel. -/
theorem c1_witness :
    GetGrayPixel 0 0 (fun _ => 200) 4 24 palZero >>> 1 = 1 := by
  have h := c1_amended 24 0 0 (fun _ => 200) 4 palZero (by tauto)
    (fun i => by norm_num) (fun i => by simp [palZero])
  simpa using h

/-- C2, code bug.  The claim states every classifier returns a code below
`2^codeBits` for every depth and palette.  `GetRedPixel` and
`GetBWYRPixel` do (they accumulate into a dedicated `ucOut`
initialised to 0), but `GetYellowPixel` ORs its result bits into the
variable still holding the palette index for 4/8-bpp sources.  For an
8-bpp pixel with palette index 2 naming pure white, it returns
`2 ||| 1 = 3` — read back through the two bit planes as yellow — and for
palette index 4 it returns `5`, outside `[0,4)` altogether, while
`GetRedPixel` and `GetBWYRPixel` on the same pixel correctly return 1. -/
theorem c2_theorem :
    GetYellowPixel 0 0 (fun i => [2].getD i 0) 4 8 palWhite = 3 ∧
      GetYellowPixel 0 0 (fun i => [4].getD i 0) 4 8 palWhite = 5 ∧
      GetRedPixel 0 0 (fun i => [2].getD i 0) 4 8 palWhite = 1 ∧
      GetBWYRPixel 0 0 (fun i => [2].getD i 0) 4 8 palWhite = 1 := by
  refine ⟨by decide, by decide, by decide, by decide⟩

/-- C3, counterexample.  For the 24-bpp pixel `(r,g,b) = (200,0,0)` the
claim's decision chain (`black if gray < 90 OR (r<80 AND g<80)`, red
threshold `r-g > 70`) yields black (0), but `GetBWYRPixel` returns red
(3): the implementation combines the black conditions with AND at
threshold 100, and tests `r-g > 32`, not 70. -/
theorem c3_counterexample :
    GetBWYRPixel 0 0 (fun i => [0, 0, 200].getD i 0) 4 24 palWhite = 3 ∧
      specChainBWYR 200 0 0 = 0 := by
  refine ⟨by decide, by decide⟩

/-- C3, amended.  `GetBWYRPixel` implements, for every depth and every
pixel, the ordered chain: when `r > b` or `g > b`, black iff
`gray < 100` AND `r < 80` AND `g < 80`; else red if `r-b > 32` and
`r-g > 32`; else yellow if `r-b > 32` and `g-b > 32`; else white; when
neither channel dominates, white iff `gray ≥ 100`. -/
theorem c3_amended (x y : Nat) (data : Nat → Nat) (pitch bpp : Nat) (pal : Pal) :
    GetBWYRPixel x y data pitch bpp pal =
      chainBWYR (sampleRGB bpp x y data pitch pal).r (sampleRGB bpp x y data pitch pal).g
        (sampleRGB bpp x y data pitch pal).b := by
  simp only [GetBWYRPixel, chainBWYR, specGray_eq]

/-- C4, counterexample.  For the 24-bpp pixel `(r,g,b) = (100,120,0)` the
claim's Black/White/Red chain treats red as dominant (`r > b`) and
yields white (1), but `GetRedPixel` requires `r > g` as well, falls to
the non-dominant branch, and returns black (0) since
`gray = 85 < 100`. -/
theorem c4_counterexample :
    GetRedPixel 0 0 (fun i => [0, 120, 100].getD i 0) 4 24 palWhite = 0 ∧
      specChainBWR 100 120 0 = 1 := by
  refine ⟨by decide, by decide⟩

/-- C4, amended.  `GetRedPixel` implements the claimed chain with red
dominance strengthened to `r > g` AND `r > b` (for every depth), and
`GetYellowPixel` implements the claimed Black/White/Yellow chain for
24/32-bpp sources (for 4/8-bpp sources its return value additionally
carries the palette index bits — see C2). -/
theorem c4_amended (x y : Nat) (data : Nat → Nat) (pitch bpp : Nat) (pal : Pal) :
    GetRedPixel x y data pitch bpp pal =
      chainBWR (sampleRGB bpp x y data pitch pal).r (sampleRGB bpp x y data pitch pal).g
        (sampleRGB bpp x y data pitch pal).b ∧
      (bpp = 24 ∨ bpp = 32 →
        GetYellowPixel x y data pitch bpp pal =
          specChainBWY (sampleRGB bpp x y data pitch pal).r
            (sampleRGB bpp x y data pitch pal).g (sampleRGB bpp x y data pitch pal).b) := by
  constructor
  · simp only [GetRedPixel, chainBWR, specGray_eq, Nat.zero_or]
  · rintro (rfl | rfl) <;>
      simp only [GetYellowPixel, specChainBWY, specGray_eq, sampleRGB, Nat.zero_or]

/-- C4, witness: the amended theorem applied to a 24-bpp pure-red pixel. -/
theorem c4_witness :
    GetYellowPixel 0 0 (fun i => [0, 0, 255].getD i 0) 4 24 palWhite =
      specChainBWY (sampleRGB 24 0 0 (fun i => [0, 0, 255].getD i 0) 4 palWhite).r
        (sampleRGB 24 0 0 (fun i => [0, 0, 255].getD i 0) 4 palWhite).g
        (sampleRGB 24 0 0 (fun i => [0, 0, 255].getD i 0) 4 palWhite).b :=
  (c4_amended 0 0 (fun i => [0, 0, 255].getD i 0) 4 24 palWhite).2 (Or.inl rfl)

/-- C7, code bug.  The claim (and the source comment `only black/white
(00/11)`) state that a 1-bpp pixel maps to code 0b00 or 0b11 and a
≥4-bpp pixel to `gray >> 6` with `gray = (b + r + 2*g)/4`.  The 1-bpp
branch extracts the pixel bit without masking (`uc >>= (x&7)` keeps all
higher bits) so the byte `0x02` at `x = 0` yields code 6; and the
implementation weights the gray value toward red, `(b + g + 2*r)/4`, so
a pure-red 24-bpp pixel yields code 1 although the spec's gray value
`63` has top bits 0. -/
theorem c7_theorem :
    GetGrayPixel 0 0 (fun i => [2].getD i 0) 4 1 palWhite = 6 ∧
      GetGrayPixel 0 0 (fun i => [0, 0, 255].getD i 0) 4 24 palWhite = 1 ∧
      specGray 255 0 0 >>> 6 = 0 := by
  refine ⟨by decide, by decide, by decide⟩

/-! ### Packing lemmas -/

theorem byteToCodes_zero (bits : Nat) : ∀ per, byteToCodes bits per 0 = List.replicate per 0
  | 0 => rfl
  | per + 1 => by
      simp [byteToCodes, byteToCodes_zero bits per, List.replicate_succ]

theorem byteToCodes_length (bits : Nat) : ∀ per v, (byteToCodes bits per v).length = per
  | 0, _ => rfl
  | per + 1, v => by simp [byteToCodes, byteToCodes_length bits per]

theorem packGroup_foldl (bits : Nat) :
    ∀ (cs : List Nat) (a : Nat),
      cs.foldl (fun acc c => acc * 2 ^ bits + c) a = a * 2 ^ (bits * cs.length) + packGroup bits cs
  | [], a => by simp [packGroup]
  | c :: cs, a => by
      have h1 := packGroup_foldl bits cs (a * 2 ^ bits + c)
      have hG : packGroup bits (c :: cs) = c * 2 ^ (bits * cs.length) + packGroup bits cs := by
        have h2 := packGroup_foldl bits cs c
        simpa [packGroup] using h2
      simp only [List.foldl_cons, List.length_cons]
      rw [h1, hG, show bits * (cs.length + 1) = bits * cs.length + bits from by ring, pow_add]
      ring

theorem packGroup_cons (bits c : Nat) (cs : List Nat) :
    packGroup bits (c :: cs) = c * 2 ^ (bits * cs.length) + packGroup bits cs := by
  have h2 := packGroup_foldl bits cs c
  simpa [packGroup] using h2

theorem packGroup_lt (bits : Nat) :
    ∀ cs : List Nat, (∀ c ∈ cs, c < 2 ^ bits) → packGroup bits cs < 2 ^ (bits * cs.length)
  | [], _ => by simp [packGroup]
  | c :: cs, h => by
      have hc : c < 2 ^ bits := h c (by simp)
      have ih := packGroup_lt bits cs (fun x hx => h x (by simp [hx]))
      rw [packGroup_cons, List.length_cons, Nat.mul_succ, pow_add]
      calc c * 2 ^ (bits * cs.length) + packGroup bits cs
          < c * 2 ^ (bits * cs.length) + 2 ^ (bits * cs.length) := by omega
        _ = (c + 1) * 2 ^ (bits * cs.length) := by ring
        _ ≤ 2 ^ bits * 2 ^ (bits * cs.length) := by
            exact Nat.mul_le_mul_right _ hc
        _ = 2 ^ (bits * cs.length) * 2 ^ bits := by ring

theorem byteToCodes_snoc (bits : Nat) :
    ∀ (n v c : Nat), v < 2 ^ (n * bits) → c < 2 ^ bits →
      byteToCodes bits (n + 1) (v * 2 ^ bits + c) = byteToCodes bits n v ++ [c]
  | 0, v, c, hv, hc => by
      rw [Nat.zero_mul, pow_zero, Nat.lt_one_iff] at hv
      subst hv
      simp [byteToCodes, Nat.mod_eq_of_lt hc]
  | n + 1, v, c, hv, hc => by
      have hpow : (2 : Nat) ^ ((n + 1) * bits) = 2 ^ (n * bits) * 2 ^ bits := by
        rw [← pow_add]
        congr 1
        ring
      have hdiv : (v * 2 ^ bits + c) / 2 ^ ((n + 1) * bits) = v / 2 ^ (n * bits) := by
        rw [hpow, Nat.mul_comm (2 ^ (n * bits)) (2 ^ bits), ← Nat.div_div_eq_div_mul]
        congr 1
        rw [Nat.add_comm, Nat.mul_comm]
        rw [Nat.add_mul_div_left _ _ (Nat.pos_pow_of_pos bits (by norm_num))]
        rw [Nat.div_eq_of_lt hc]
        omega
      have hmod : (v * 2 ^ bits + c) % 2 ^ ((n + 1) * bits)
          = (v % 2 ^ (n * bits)) * 2 ^ bits + c := by
        rw [hpow]
        have h1 : v * 2 ^ bits % (2 ^ (n * bits) * 2 ^ bits)
            = (v % 2 ^ (n * bits)) * 2 ^ bits := Nat.mul_mod_mul_right _ _ _
        have h2 : (v % 2 ^ (n * bits)) * 2 ^ bits + c < 2 ^ (n * bits) * 2 ^ bits := by
          have hvm : v % 2 ^ (n * bits) < 2 ^ (n * bits) :=
            Nat.mod_lt _ (Nat.pos_pow_of_pos _ (by norm_num))
          calc (v % 2 ^ (n * bits)) * 2 ^ bits + c
              < (v % 2 ^ (n * bits)) * 2 ^ bits + 2 ^ bits := by omega
            _ = (v % 2 ^ (n * bits) + 1) * 2 ^ bits := by ring
            _ ≤ 2 ^ (n * bits) * 2 ^ bits := Nat.mul_le_mul_right _ (by omega)
        calc (v * 2 ^ bits + c) % (2 ^ (n * bits) * 2 ^ bits)
            = (v * 2 ^ bits % (2 ^ (n * bits) * 2 ^ bits)
                + c % (2 ^ (n * bits) * 2 ^ bits)) % (2 ^ (n * bits) * 2 ^ bits) :=
              Nat.add_mod _ _ _
          _ = ((v % 2 ^ (n * bits)) * 2 ^ bits + c) % (2 ^ (n * bits) * 2 ^ bits) := by
              rw [h1, Nat.mod_eq_of_lt (lt_of_lt_of_le hc (by
                calc (2 : Nat) ^ bits = 1 * 2 ^ bits := by ring
                  _ ≤ 2 ^ (n * bits) * 2 ^ bits :=
                    Nat.mul_le_mul_right _ (Nat.one_le_two_pow)))]
          _ = (v % 2 ^ (n * bits)) * 2 ^ bits + c := Nat.mod_eq_of_lt h2
      have hvm : v % 2 ^ (n * bits) < 2 ^ (n * bits) :=
        Nat.mod_lt _ (Nat.pos_pow_of_pos _ (by norm_num))
      have ih := byteToCodes_snoc bits n (v % 2 ^ (n * bits)) c hvm hc
      show (v * 2 ^ bits + c) / 2 ^ ((n + 1) * bits) % 2 ^ bits
            :: byteToCodes bits (n + 1) ((v * 2 ^ bits + c) % 2 ^ ((n + 1) * bits))
          = (v / 2 ^ ((n) * bits) % 2 ^ bits :: byteToCodes bits n (v % 2 ^ (n * bits))) ++ [c]
      rw [hdiv, hmod, ih]
      simp

theorem byteToCodes_pad (bits : Nat) :
    ∀ (n pad v : Nat), v < 2 ^ (n * bits) →
      byteToCodes bits (n + pad) (v * 2 ^ (pad * bits)) = byteToCodes bits n v ++ List.replicate pad 0
  | 0, pad, v, hv => by
      rw [Nat.zero_mul, pow_zero, Nat.lt_one_iff] at hv
      subst hv
      simp [byteToCodes_zero]
  | n + 1, pad, v, hv => by
      have hpow : (2 : Nat) ^ ((n + pad) * bits) = 2 ^ (n * bits) * 2 ^ (pad * bits) := by
        rw [← pow_add]
        congr 1
        ring
      have hdiv : v * 2 ^ (pad * bits) / 2 ^ ((n + pad) * bits) = v / 2 ^ (n * bits) := by
        rw [hpow]
        exact Nat.mul_div_mul_right _ _ (Nat.pos_pow_of_pos _ (by norm_num))
      have hmod : v * 2 ^ (pad * bits) % 2 ^ ((n + pad) * bits)
          = (v % 2 ^ (n * bits)) * 2 ^ (pad * bits) := by
        rw [hpow]
        exact Nat.mul_mod_mul_right _ _ _
      have hvm : v % 2 ^ (n * bits) < 2 ^ (n * bits) :=
        Nat.mod_lt _ (Nat.pos_pow_of_pos _ (by norm_num))
      have ih := byteToCodes_pad bits n pad (v % 2 ^ (n * bits)) hvm
      rw [show n + 1 + pad = (n + pad) + 1 from by ring]
      show v * 2 ^ (pad * bits) / 2 ^ ((n + pad) * bits) % 2 ^ bits
            :: byteToCodes bits (n + pad) (v * 2 ^ (pad * bits) % 2 ^ ((n + pad) * bits))
          = (v / 2 ^ (n * bits) % 2 ^ bits :: byteToCodes bits n (v % 2 ^ (n * bits)))
            ++ List.replicate pad 0
      rw [hdiv, hmod, ih]
      simp

/-- Step equation of the packing loop at the last pixel of a row. -/
theorem packRowAux_single (bits per uc cnt c : Nat) :
    packRowAux bits per uc cnt [c]
      = if cnt + 1 = per then [((uc <<< bits) % 256) ||| c]
        else [((((uc <<< bits) % 256) ||| c) <<< ((per - (cnt + 1)) * bits)) % 256] := rfl

/-- Step equation of the packing loop at a pixel followed by more. -/
theorem packRowAux_cons_cons (bits per uc cnt c c2 : Nat) (rest2 : List Nat) :
    packRowAux bits per uc cnt (c :: c2 :: rest2)
      = if cnt + 1 = per
          then (((uc <<< bits) % 256) ||| c) :: packRowAux bits per 0 0 (c2 :: rest2)
          else packRowAux bits per (((uc <<< bits) % 256) ||| c) (cnt + 1) (c2 :: rest2) := rfl

/-- Central characterisation of the packing loop: bit-extracting the
emitted bytes yields the codes already accumulated in `uc`, then the
remaining codes of the row, then the zero padding of the final partial
byte. -/
theorem packRowAux_flatMap (bits per : Nat) (hbits : 0 < bits) (hp8 : bits * per = 8) :
    ∀ (cs : List Nat) (uc cnt : Nat), cs ≠ [] → cnt < per → uc < 2 ^ (cnt * bits) →
      (∀ c ∈ cs, c < 2 ^ bits) →
      (packRowAux bits per uc cnt cs).flatMap (byteToCodes bits per)
        = byteToCodes bits cnt uc ++ cs
            ++ List.replicate ((per - (cnt + cs.length) % per) % per) 0
  | [], _, _, hne, _, _, _ => absurd rfl hne
  | c :: rest, uc, cnt, _, hcnt, huc, hcs => by
      have hper8 : (2 : Nat) ^ (per * bits) = 256 := by
        rw [Nat.mul_comm, hp8]
        norm_num
      have hc : c < 2 ^ bits := hcs c (by simp)
      have hrest : ∀ x ∈ rest, x < 2 ^ bits := fun x hx => hcs x (by simp [hx])
      have huc2lt : uc * 2 ^ bits + c < 2 ^ ((cnt + 1) * bits) := by
        calc uc * 2 ^ bits + c < uc * 2 ^ bits + 2 ^ bits := by omega
          _ = (uc + 1) * 2 ^ bits := by ring
          _ ≤ 2 ^ (cnt * bits) * 2 ^ bits := Nat.mul_le_mul_right _ (by omega)
          _ = 2 ^ ((cnt + 1) * bits) := by
              rw [← pow_add]
              congr 1
              ring
      have hsucc_le : ∀ k : Nat, k ≤ per → (2 : Nat) ^ (k * bits) ≤ 256 := by
        intro k hk
        rw [← hper8]
        exact Nat.pow_le_pow_right (by norm_num) (Nat.mul_le_mul_right _ hk)
      have hval : uc * 2 ^ bits + c < 256 :=
        lt_of_lt_of_le huc2lt (hsucc_le (cnt + 1) (by omega))
      have huc2eq : ((uc <<< bits) % 256) ||| c = uc * 2 ^ bits + c := by
        rw [Nat.shiftLeft_eq, Nat.mod_eq_of_lt (by omega), Nat.mul_comm uc (2 ^ bits)]
        exact (Nat.mul_add_lt_is_or hc uc).symm
      have hpos : 0 < per := by
        rcases Nat.eq_zero_or_pos per with h | h
        · rw [h, Nat.mul_zero] at hp8
          exact absurd hp8 (by norm_num)
        · exact h
      have hsnoc := byteToCodes_snoc bits cnt uc c huc hc
      rcases rest with _ | ⟨c2, rest2⟩
      · -- last pixel of the row
        by_cases hend : cnt + 1 = per
        · have hsnoc2 : byteToCodes bits per (uc * 2 ^ bits + c)
              = byteToCodes bits cnt uc ++ [c] := hend ▸ hsnoc
          rw [packRowAux_single, if_pos hend, huc2eq]
          rw [List.flatMap_cons, List.flatMap_nil, List.append_nil, hsnoc2]
          have hpad : (per - (cnt + [c].length) % per) % per = 0 := by
            simp only [List.length_singleton]
            rw [show cnt + 1 = per from hend]
            simp [Nat.mod_self]
          rw [hpad]
          simp
        · have hlt : cnt + 1 < per := lt_of_le_of_ne hcnt hend
          have hshift : (uc * 2 ^ bits + c) <<< ((per - (cnt + 1)) * bits) % 256
              = (uc * 2 ^ bits + c) * 2 ^ ((per - (cnt + 1)) * bits) := by
            rw [Nat.shiftLeft_eq, Nat.mod_eq_of_lt]
            rw [← hper8, show per * bits = (cnt + 1) * bits + (per - (cnt + 1)) * bits from by
              rw [← Nat.add_mul]
              congr 1
              omega, pow_add]
            exact (Nat.mul_lt_mul_right (Nat.pos_pow_of_pos _ (by norm_num))).mpr huc2lt
          have hbp := byteToCodes_pad bits (cnt + 1) (per - (cnt + 1)) (uc * 2 ^ bits + c) huc2lt
          rw [show cnt + 1 + (per - (cnt + 1)) = per from by omega, hsnoc] at hbp
          rw [packRowAux_single, if_neg hend, huc2eq]
          rw [List.flatMap_cons, List.flatMap_nil, List.append_nil, hshift, hbp]
          have hpad : (per - (cnt + [c].length) % per) % per = per - (cnt + 1) := by
            simp only [List.length_singleton]
            rw [Nat.mod_eq_of_lt hlt, Nat.mod_eq_of_lt (by omega)]
          rw [hpad]
      · -- more pixels follow in this row
        by_cases hend : cnt + 1 = per
        · have hsnoc2 : byteToCodes bits per (uc * 2 ^ bits + c)
              = byteToCodes bits cnt uc ++ [c] := hend ▸ hsnoc
          have ih := packRowAux_flatMap bits per hbits hp8 (c2 :: rest2) 0 0
            (by simp) hpos (by simp) hrest
          rw [packRowAux_cons_cons, if_pos hend, huc2eq]
          rw [List.flatMap_cons, ih, hsnoc2]
          have hpad : (per - (0 + (c2 :: rest2).length) % per) % per
              = (per - (cnt + (c :: c2 :: rest2).length) % per) % per := by
            have h1 : cnt + (c :: c2 :: rest2).length = per + (c2 :: rest2).length := by
              simp only [List.length_cons]
              omega
            rw [h1, Nat.add_mod_left, Nat.zero_add]
          rw [hpad]
          simp [byteToCodes]
        · have hlt : cnt + 1 < per := lt_of_le_of_ne hcnt hend
          have ih := packRowAux_flatMap bits per hbits hp8 (c2 :: rest2)
            (uc * 2 ^ bits + c) (cnt + 1) (by simp) hlt huc2lt hrest
          rw [packRowAux_cons_cons, if_neg hend, huc2eq]
          rw [ih, hsnoc]
          have hpad : (per - (cnt + 1 + (c2 :: rest2).length) % per) % per
              = (per - (cnt + (c :: c2 :: rest2).length) % per) % per := by
            congr 3
            simp only [List.length_cons]
            omega
          rw [hpad]
          simp

/-- Length of the byte output of the packing loop: one byte per started
group of `per` codes. -/
theorem packRowAux_length (bits per : Nat) :
    ∀ (cs : List Nat) (uc cnt : Nat), cs ≠ [] → cnt < per →
      (packRowAux bits per uc cnt cs).length = (cnt + cs.length + (per - 1)) / per
  | [], _, _, hne, _ => absurd rfl hne
  | c :: rest, uc, cnt, _, hcnt => by
      have hpos : 0 < per := by omega
      rcases rest with _ | ⟨c2, rest2⟩
      · rw [packRowAux_single]
        split <;>
          · have hnum : cnt + [c].length + (per - 1) = cnt + per := by
              simp only [List.length_singleton]
              omega
            rw [hnum, Nat.add_div_right _ hpos, Nat.div_eq_of_lt hcnt]
            simp
      · rw [packRowAux_cons_cons]
        split
        · have ih := packRowAux_length bits per (c2 :: rest2) 0 0 (by simp) hpos
          have hnum : cnt + (c :: c2 :: rest2).length + (per - 1)
              = (0 + (c2 :: rest2).length + (per - 1)) + per := by
            simp only [List.length_cons]
            omega
          rw [hnum, Nat.add_div_right _ hpos, List.length_cons, ih]
        · have hlt : cnt + 1 < per := by omega
          have ih := packRowAux_length bits per (c2 :: rest2)
            (((uc <<< bits) % 256) ||| c) (cnt + 1) (by simp) hlt
          rw [ih]
          congr 1
          simp only [List.length_cons]
          omega

/-- Length of a packed row: `ceil(codes/per)` bytes. -/
theorem packRow_length (bits per : Nat) (cs : List Nat) (hne : cs ≠ []) (hpos : 0 < per) :
    (packRow bits per cs).length = (cs.length + (per - 1)) / per := by
  unfold packRow
  rw [packRowAux_length bits per cs 0 0 hne hpos, Nat.zero_add]

/-- Round trip for one row: bit-extracting the packed bytes of a row of
in-range codes reproduces the codes. -/
theorem unpackRow_packRow (bits per : Nat) (hbits : 0 < bits) (hp8 : bits * per = 8)
    (cs : List Nat) (hne : cs ≠ []) (hcs : ∀ c ∈ cs, c < 2 ^ bits) :
    unpackRowBytes bits per cs.length (packRow bits per cs) = cs := by
  have hpos : 0 < per := by
    rcases Nat.eq_zero_or_pos per with h | h
    · rw [h, Nat.mul_zero] at hp8
      exact absurd hp8 (by norm_num)
    · exact h
  unfold unpackRowBytes packRow
  rw [packRowAux_flatMap bits per hbits hp8 cs 0 0 hne hpos (by simp) hcs,
    show byteToCodes bits 0 0 = [] from rfl, List.nil_append]
  exact List.take_left cs _

/-- Slicing a concatenation of rows of uniform length `p` at row `y`
recovers that row. -/
theorem flatten_drop_take {α : Type} (p : Nat) :
    ∀ (rows : List (List α)) (y : Nat), (∀ r ∈ rows, r.length = p) → y < rows.length →
      ∀ d : List α, (rows.flatten.drop (y * p)).take p = rows.getD y d
  | [], y, _, h => absurd h (by simp)
  | r :: rows, 0, hlen, _ => by
      intro d
      simp only [List.flatten_cons, Nat.zero_mul, List.drop_zero, List.getD_cons_zero]
      rw [← hlen r (by simp)]
      exact List.take_left r rows.flatten
  | r :: rows, y + 1, hlen, h => by
      intro d
      have hr : r.length = p := hlen r (by simp)
      simp only [List.flatten_cons, List.getD_cons_succ]
      rw [show (y + 1) * p = r.length + y * p from by
        rw [hr]
        ring, List.drop_append]
      exact flatten_drop_take p rows y (fun x hx => hlen x (by simp [hx])) (by simpa using h) d

/-- Mapping then indexing with a default: the default is irrelevant in
range. -/
theorem map_getD_of_lt {α β : Type} (f : α → β) :
    ∀ (l : List α) (y : Nat), y < l.length →
      ∀ (d : β) (d2 : α), (l.map f).getD y d = f (l.getD y d2)
  | [], y, h => absurd h (by simp)
  | a :: l, 0, _ => by
      intro d d2
      simp
  | a :: l, y + 1, h => by
      intro d d2
      simp only [List.map_cons, List.getD_cons_succ]
      exact map_getD_of_lt f l y (by simpa using h) d d2

/-- Round trip for a whole plane: unpacking the packed plane of an image
of in-range codes reproduces all rows. -/
theorem unpackPlane_packPlane (bits per : Nat) (hbits : 0 < bits) (hp8 : bits * per = 8)
    (w h : Nat) (rows : List (List Nat)) (hw : 1 ≤ w) (hlen : rows.length = h)
    (hrow : ∀ r ∈ rows, r.length = w) (hc : ∀ r ∈ rows, ∀ c ∈ r, c < 2 ^ bits) :
    unpackPlane bits per w h (packPlane bits per rows) = rows := by
  have hpos : 0 < per := by
    rcases Nat.eq_zero_or_pos per with hp | hp
    · rw [hp, Nat.mul_zero] at hp8
      exact absurd hp8 (by norm_num)
    · exact hp
  have hpitch : ∀ r ∈ rows, (packRow bits per r).length = (w + per - 1) / per := by
    intro r hr
    have hne : r ≠ [] := by
      have := hrow r hr
      intro hcon
      rw [hcon] at this
      simp at this
      omega
    rw [packRow_length bits per r hne hpos, hrow r hr]
    congr 1
    omega
  unfold unpackPlane packPlane
  apply List.ext_getElem
  · simpa using hlen.symm
  · intro n h1 h2
    have hn : n < h := by simpa using h1
    have hn2 : n < rows.length := by omega
    simp only [List.getElem_map, List.getElem_range]
    have hlens : ∀ r ∈ rows.map (packRow bits per), r.length = (w + per - 1) / per := by
      intro r hr
      obtain ⟨r0, hr0, rfl⟩ := List.mem_map.mp hr
      exact hpitch r0 hr0
    have hslice := flatten_drop_take ((w + per - 1) / per) (rows.map (packRow bits per)) n
      hlens (by simpa using hn2) []
    rw [hslice, map_getD_of_lt (packRow bits per) rows n hn2 [] []]
    have hmem : rows.getD n [] ∈ rows := by
      rw [List.getD_eq_getElem rows [] hn2]
      exact List.getElem_mem hn2
    have hwlen : (rows.getD n []).length = w := hrow _ hmem
    rw [← hwlen]
    rw [unpackRow_packRow bits per hbits hp8 _ (by
      intro hcon
      rw [hcon] at hwlen
      simp at hwlen
      omega) (hc _ hmem)]
    rw [List.getD_eq_getElem rows [] hn2]

/-- Sum of a constant map. -/
theorem sum_map_const {α : Type} : ∀ (l : List α) (p : Nat), (l.map (fun _ => p)).sum = l.length * p
  | [], _ => by simp
  | a :: l, p => by
      simp only [List.map_cons, List.sum_cons, sum_map_const l p, List.length_cons]
      ring

/-- Byte count of one emitted plane: `ceil(w/per)` bytes per row, `h`
rows. -/
theorem planeBytes_length (bits per w h : Nat) (code : Nat → Nat → Nat)
    (hw : 1 ≤ w) (hpos : 0 < per) :
    (planeBytes bits per w h code).length = (w + (per - 1)) / per * h := by
  unfold planeBytes
  rw [List.length_flatten, List.map_map]
  have hconst : ∀ y ∈ List.range h,
      (List.length ∘ fun y => packRow bits per ((List.range w).map (fun x => code x y))) y
        = (w + (per - 1)) / per := by
    intro y _
    simp only [Function.comp]
    rw [packRow_length bits per _ (by
      intro hcon
      have := congrArg List.length hcon
      simp at this
      omega) hpos]
    simp
  rw [List.map_congr_left hconst, sum_map_const]
  simp [Nat.mul_comm]

/-- Every output row of an emitted plane begins at a fresh byte: the
`y`-th `ceil(w/per)`-byte slice of the plane is exactly the packed row of
the `y`-th row's codes. -/
theorem planeBytes_slice (bits per w h y : Nat) (code : Nat → Nat → Nat)
    (hw : 1 ≤ w) (hpos : 0 < per) (hy : y < h) :
    ((planeBytes bits per w h code).drop (y * ((w + (per - 1)) / per))).take ((w + (per - 1)) / per)
      = packRow bits per ((List.range w).map (fun x => code x y)) := by
  unfold planeBytes
  have hlens : ∀ r ∈ (List.range h).map
      (fun y => packRow bits per ((List.range w).map (fun x => code x y))),
      r.length = (w + (per - 1)) / per := by
    intro r hr
    obtain ⟨y0, _, rfl⟩ := List.mem_map.mp hr
    rw [packRow_length bits per _ (by
      intro hcon
      have := congrArg List.length hcon
      simp at this
      omega) hpos]
    simp
  have hslice := flatten_drop_take ((w + (per - 1)) / per)
    ((List.range h).map (fun y => packRow bits per ((List.range w).map (fun x => code x y))))
    y hlens (by simpa using hy) []
  rw [hslice, map_getD_of_lt _ (List.range h) y (by simpa using hy) [] 0,
    List.getD_eq_getElem _ 0 (by simpa using hy), List.getElem_range]

/-- C5, confirmed.  Packing an image of 2-bit codes (width ≥ 1, height
≥ 1, rows packed MSB-first with each row starting a fresh byte and the
final partial byte left-shifted with zero low bits) and then
bit-extracting the bytes reproduces the codes exactly; likewise the
1-bit-per-plane packing reproduces, for each plane, the extracted bit of
every code. -/
theorem c5_theorem (w h : Nat) (rows : List (List Nat)) (hw : 1 ≤ w) (hh : 1 ≤ h)
    (hlen : rows.length = h) (hrow : ∀ r ∈ rows, r.length = w)
    (hc : ∀ r ∈ rows, ∀ c ∈ r, c < 4) :
    unpackPlane 2 4 w h (packPlane 2 4 rows) = rows ∧
      ∀ pl : Nat,
        unpackPlane 1 8 w h (packPlane 1 8 (rows.map (List.map (fun c => (c >>> pl) &&& 1))))
          = rows.map (List.map (fun c => (c >>> pl) &&& 1)) := by
  constructor
  · exact unpackPlane_packPlane 2 4 (by norm_num) (by norm_num) w h rows hw hlen hrow
      (by simpa using hc)
  · intro pl
    apply unpackPlane_packPlane 1 8 (by norm_num) (by norm_num) w h _ hw
    · simpa using hlen
    · intro r hr
      obtain ⟨r0, hr0, rfl⟩ := List.mem_map.mp hr
      simpa using hrow r0 hr0
    · intro r hr c hcmem
      obtain ⟨r0, hr0, rfl⟩ := List.mem_map.mp hr
      obtain ⟨c0, _, rfl⟩ := List.mem_map.mp hcmem
      have : c0 >>> pl &&& 1 = (c0 >>> pl) % 2 := by
        rw [Nat.and_comm, Nat.one_and_eq_mod_two]
      rw [this]
      have h2 : (c0 >>> pl) % 2 < 2 := Nat.mod_lt _ (by norm_num)
      simpa using h2

/-- C5, witness: round trip of a concrete 2×3 image in both packings. -/
theorem c5_witness :
    unpackPlane 2 4 3 2 (packPlane 2 4 [[3, 1, 2], [0, 2, 1]]) = [[3, 1, 2], [0, 2, 1]] ∧
      unpackPlane 1 8 3 2 (packPlane 1 8 ([[3, 1, 2], [0, 2, 1]].map
          (List.map (fun c => (c >>> 0) &&& 1))))
        = [[3, 1, 2], [0, 2, 1]].map (List.map (fun c => (c >>> 0) &&& 1)) ∧
      unpackPlane 1 8 3 2 (packPlane 1 8 ([[3, 1, 2], [0, 2, 1]].map
          (List.map (fun c => (c >>> 1) &&& 1))))
        = [[3, 1, 2], [0, 2, 1]].map (List.map (fun c => (c >>> 1) &&& 1)) := by
  have h := c5_theorem 3 2 [[3, 1, 2], [0, 2, 1]] (by norm_num) (by norm_num)
    (by decide) (by decide) (by decide)
  exact ⟨h.1, h.2 0, h.2 1⟩

/-- C8, confirmed.  For every image of width ≥ 1 and height ≥ 1, the
one-plane 2-bit-packed conversion emits exactly `ceil(w*2/8)*h` bytes,
each 1-bit plane of the other conversions emits exactly `ceil(w/8)*h`
bytes, and every output row begins at a fresh byte (the `y`-th
row-pitch slice of the output is exactly the packed codes of row `y`,
with no bit-level continuation from the previous row). -/
theorem c8_theorem (data : Nat → Nat) (w h bpp iType : Nat) (pal : Pal)
    (hw : 1 ≤ w) (hh : 1 ≤ h) :
    (MakeC_BW data w h bpp pal).length = (w + 7) / 8 * h ∧
      (MakeC_4GRAY data w h bpp pal).1.length = (w + 7) / 8 * h ∧
      (MakeC_4GRAY data w h bpp pal).2.length = (w + 7) / 8 * h ∧
      (MakeC_3CLR iType data w h bpp pal).1.length = (w + 7) / 8 * h ∧
      (MakeC_3CLR iType data w h bpp pal).2.length = (w + 7) / 8 * h ∧
      (MakeC_4CLR data w h bpp pal).length = (w + 3) / 4 * h ∧
      ∀ y, y < h →
        ((MakeC_BW data w h bpp pal).drop (y * ((w + 7) / 8))).take ((w + 7) / 8)
            = packRow 1 8 ((List.range w).map
                (fun x => GetGrayPixel x y data (bmpPitch w bpp) bpp pal >>> 1)) ∧
          ((MakeC_4CLR data w h bpp pal).drop (y * ((w + 3) / 4))).take ((w + 3) / 4)
            = packRow 2 4 ((List.range w).map
                (fun x => GetBWYRPixel x y data (bmpPitch w bpp) bpp pal)) := by
  refine ⟨planeBytes_length 1 8 w h _ hw (by norm_num),
    planeBytes_length 1 8 w h _ hw (by norm_num),
    planeBytes_length 1 8 w h _ hw (by norm_num),
    planeBytes_length 1 8 w h _ hw (by norm_num),
    planeBytes_length 1 8 w h _ hw (by norm_num),
    planeBytes_length 2 4 w h _ hw (by norm_num),
    fun y hy => ⟨planeBytes_slice 1 8 w h y _ hw (by norm_num) hy,
      planeBytes_slice 2 4 w h y _ hw (by norm_num) hy⟩⟩

/-- C8, witness: byte counts and the fresh-byte row property of a
concrete all-zero 5×2 8-bpp image. -/
theorem c8_witness :
    (MakeC_BW (fun _ => 0) 5 2 8 palZero).length = (5 + 7) / 8 * 2 ∧
      ((MakeC_4CLR (fun _ => 0) 5 2 8 palZero).drop (1 * ((5 + 3) / 4))).take ((5 + 3) / 4)
        = packRow 2 4 ((List.range 5).map
            (fun x => GetBWYRPixel x 1 (fun _ => 0) (bmpPitch 5 8) 8 palZero)) := by
  have h := c8_theorem (fun _ => 0) 5 2 8 1 palZero (by norm_num) (by norm_num)
  exact ⟨h.1, (h.2.2.2.2.2.2 1 (by norm_num)).2⟩

/-! ### Swap-loop machinery for the geometric transforms -/

/-- Index pair of blocks exchanged by one `swapStep`. -/
def InBlocks (g s d i : Nat) : Prop := (s ≤ i ∧ i < s + g) ∨ (d ≤ i ∧ i < d + g)

/-- Separation invariant of the inward-moving swap loop: the `n` source
groups end before the `n` destination groups begin. -/
def Sep (g n s d : Nat) : Prop := s + 2 * n * g ≤ d + g

/-- Stepping the separation invariant inward. -/
theorem sep_step (g n s d : Nat) (h : Sep g (n + 1) s d) :
    Sep g n (s + g) (d - g) ∧ g ≤ d := by
  unfold Sep at h ⊢
  rw [show 2 * (n + 1) * g = 2 * n * g + 2 * g from by ring] at h
  omega

/-- Any index of the region lies between the first source group and the
end of the first destination group. -/
theorem inRegion_bound (g : Nat) : ∀ n s d i, Sep g n s d → InRegion g n s d i →
    s ≤ i ∧ i < d + g
  | 0, _, _, _, _, h => absurd h (by simp [InRegion])
  | n + 1, s, d, i, hsep, h => by
      have hsep2 := sep_step g n s d hsep
      rcases h with ⟨h1, h2⟩ | ⟨h1, h2⟩ | h
      · refine ⟨h1, ?_⟩
        have hg : 2 * (n + 1) * g + s ≤ d + g := by
          have := hsep
          unfold Sep at this
          omega
        have h2g : g ≤ 2 * (n + 1) * g := by
          calc g = 1 * g := by ring
            _ ≤ 2 * (n + 1) * g := Nat.mul_le_mul_right _ (by omega)
        omega
      · exact ⟨by
          have h2g : g ≤ 2 * (n + 1) * g := by
            calc g = 1 * g := by ring
              _ ≤ 2 * (n + 1) * g := Nat.mul_le_mul_right _ (by omega)
          have := hsep
          unfold Sep at this
          omega, h2⟩
      · have ih := inRegion_bound g n (s + g) (d - g) i hsep2.1 h
        have hgd := hsep2.2
        omega

/-- The value of `swapStep` at an index of the blocks depends only on the
buffer's values inside the blocks. -/
theorem swapStep_eq_on (t : Nat → Nat) (g s d : Nat) (b1 b2 : Nat → Nat)
    (hag : ∀ j, InBlocks g s d j → b1 j = b2 j) (i : Nat) (hi : InBlocks g s d i) :
    swapStep t g s d b1 i = swapStep t g s d b2 i := by
  unfold swapStep
  by_cases h1 : s ≤ i ∧ i < s + g
  · rw [if_pos h1, if_pos h1, hag (d + (i - s)) (Or.inr (by omega))]
  · rcases hi with hi | hi
    · exact absurd hi h1
    · rw [if_neg h1, if_neg h1, if_pos hi, if_pos hi, hag (s + (i - d)) (Or.inl (by omega))]

/-- A `swapStep` is local to its two blocks. -/
theorem swapStep_local (t : Nat → Nat) (g s d : Nat) :
    LocalTo (InBlocks g s d) (swapStep t g s d) := by
  constructor
  · intro buf i hi
    unfold swapStep
    rw [if_neg (fun h => hi (Or.inl h)), if_neg (fun h => hi (Or.inr h))]
  · intro b1 b2 hag i hi
    exact swapStep_eq_on t g s d b1 b2 hag i hi

/-- Indices outside the region are untouched by the swap loop. -/
theorem swapLoop_outside (t : Nat → Nat) (g : Nat) :
    ∀ n s d buf i, ¬ InRegion g n s d i → swapLoop t g n s d buf i = buf i
  | 0, _, _, _, _, _ => rfl
  | n + 1, s, d, buf, i, hi => by
      show swapLoop t g n (s + g) (d - g) (swapStep t g s d buf) i = buf i
      rw [swapLoop_outside t g n (s + g) (d - g) _ i (fun h => hi (Or.inr (Or.inr h)))]
      exact (swapStep_local t g s d).1 buf i
        (fun h => hi (by rcases h with h | h <;> [exact Or.inl h; exact Or.inr (Or.inl h)]))

/-- The swap loop is local to its region. -/
theorem swapLoop_local (t : Nat → Nat) (g : Nat) :
    ∀ n s d, LocalTo (InRegion g n s d) (swapLoop t g n s d)
  | 0, s, d => ⟨fun _ _ _ => rfl, fun _ _ _ i hi => absurd hi (by simp [InRegion])⟩
  | n + 1, s, d => by
      have ih := swapLoop_local t g n (s + g) (d - g)
      constructor
      · intro buf i hi
        exact swapLoop_outside t g (n + 1) s d buf i hi
      · intro b1 b2 hag i hi
        show swapLoop t g n (s + g) (d - g) (swapStep t g s d b1) i
            = swapLoop t g n (s + g) (d - g) (swapStep t g s d b2) i
        have hstep_ag : ∀ j, InRegion g n (s + g) (d - g) j ∨ InBlocks g s d j →
            swapStep t g s d b1 j = swapStep t g s d b2 j := by
          intro j hj
          by_cases hblk : InBlocks g s d j
          · exact swapStep_eq_on t g s d b1 b2
              (fun k hk => hag k (by
                rcases hk with hk | hk
                · exact Or.inl hk
                · exact Or.inr (Or.inl hk))) j hblk
          · rw [(swapStep_local t g s d).1 b1 j hblk, (swapStep_local t g s d).1 b2 j hblk]
            rcases hj with hj | hj
            · exact hag j (Or.inr (Or.inr hj))
            · exact absurd hj hblk
        by_cases hrec : InRegion g n (s + g) (d - g) i
        · exact ih.2 _ _ (fun j hj => hstep_ag j (Or.inl hj)) i hrec
        · rw [swapLoop_outside t g n (s + g) (d - g) _ i hrec,
            swapLoop_outside t g n (s + g) (d - g) _ i hrec]
          apply hstep_ag
          right
          rcases hi with hi | hi | hi
          · exact Or.inl hi
          · exact Or.inr hi
          · exact absurd hi hrec

/-- Two buffer operations local to disjoint index sets commute. -/
theorem localTo_comm {S T : Nat → Prop} {F G : (Nat → Nat) → Nat → Nat}
    (hF : LocalTo S F) (hG : LocalTo T G) (hdis : ∀ i, S i → T i → False) (buf : Nat → Nat) :
    F (G buf) = G (F buf) := by
  funext i
  by_cases hs : S i
  · rw [hG.1 (F buf) i (fun h => hdis i hs h)]
    exact hF.2 (G buf) buf (fun j hj => hG.1 buf j (fun h => hdis j hj h)) i hs
  · by_cases ht : T i
    · rw [hF.1 (G buf) i hs]
      exact hG.2 buf (F buf) (fun j hj => (hF.1 buf j (fun h => hdis j h hj)).symm) i ht
    · rw [hF.1 (G buf) i hs, hG.1 buf i ht, hG.1 (F buf) i ht, hF.1 buf i hs]

/-- One `swapStep` applied twice restores the buffer, provided the blocks
are disjoint and the byte transform is an involution on the values
present. -/
theorem swapStep_invol (t : Nat → Nat) (g s d : Nat) (buf : Nat → Nat)
    (hdg : g = 0 ∨ s + g ≤ d) (hinv : ∀ j, t (t (buf j)) = buf j) :
    swapStep t g s d (swapStep t g s d buf) = buf := by
  funext i
  rcases hdg with rfl | hsd
  · unfold swapStep
    rw [if_neg (by omega : ¬(s ≤ i ∧ i < s + 0)), if_neg (by omega : ¬(d ≤ i ∧ i < d + 0)),
      if_neg (by omega : ¬(s ≤ i ∧ i < s + 0)), if_neg (by omega : ¬(d ≤ i ∧ i < d + 0))]
  · unfold swapStep
    by_cases h1 : s ≤ i ∧ i < s + g
    · rw [if_pos h1, if_neg (by omega : ¬(s ≤ d + (i - s) ∧ d + (i - s) < s + g)),
        if_pos (by omega : d ≤ d + (i - s) ∧ d + (i - s) < d + g)]
      rw [show s + (d + (i - s) - d) = i from by omega]
      exact hinv i
    · by_cases h2 : d ≤ i ∧ i < d + g
      · rw [if_neg h1, if_pos h2, if_pos (by omega : s ≤ s + (i - d) ∧ s + (i - d) < s + g)]
        rw [show d + (s + (i - d) - s) = i from by omega]
        exact hinv i
      · rw [if_neg h1, if_neg h2, if_neg h1, if_neg h2]

/-- The swap step preserves byte-boundedness when the transform does. -/
theorem swapStep_bounded (t : Nat → Nat) (g s d : Nat) (buf : Nat → Nat)
    (hbuf : ∀ i, buf i < 256) (ht : ∀ v, v < 256 → t v < 256) :
    ∀ i, swapStep t g s d buf i < 256 := by
  intro i
  unfold swapStep
  split
  · exact ht _ (hbuf _)
  · split
    · exact ht _ (hbuf _)
    · exact hbuf i

/-- The swap loop preserves byte-boundedness when the transform does. -/
theorem swapLoop_bounded (t : Nat → Nat) (g : Nat) (ht : ∀ v, v < 256 → t v < 256) :
    ∀ n s d buf, (∀ i, buf i < 256) → ∀ i, swapLoop t g n s d buf i < 256
  | 0, _, _, _, hbuf, i => hbuf i
  | n + 1, s, d, buf, hbuf, i =>
      swapLoop_bounded t g ht n (s + g) (d - g) _
        (swapStep_bounded t g s d buf hbuf ht) i

/-- The swap loop applied twice restores the buffer, under the
separation invariant and for a byte transform that is an involution on
bytes. -/
theorem swapLoop_invol (t : Nat → Nat) (g : Nat)
    (hinv : ∀ v, v < 256 → t (t v) = v) (ht : ∀ v, v < 256 → t v < 256) :
    ∀ n s d buf, (n = 0 ∨ Sep g n s d) → (∀ i, buf i < 256) →
      swapLoop t g n s d (swapLoop t g n s d buf) = buf
  | 0, _, _, _, _, _ => rfl
  | n + 1, s, d, buf, hsep, hbuf => by
      rcases hsep with hsep | hsep
      · exact absurd hsep (by omega)
      have hstep := sep_step g n s d hsep
      have hgd : g ≤ d := hstep.2
      have hsd : g = 0 ∨ s + g ≤ d := by
        rcases Nat.eq_zero_or_pos g with hg | hg
        · exact Or.inl hg
        · right
          have h2g : 2 * g ≤ 2 * (n + 1) * g := by
            calc 2 * g = 2 * 1 * g := by ring
              _ ≤ 2 * (n + 1) * g :=
                Nat.mul_le_mul_right _ (by omega)
          have := hsep
          unfold Sep at this
          omega
      have hdisj : ∀ i, InRegion g n (s + g) (d - g) i → InBlocks g s d i → False := by
        intro i hr hb
        have hbound := inRegion_bound g n (s + g) (d - g) i hstep.1 hr
        rcases hb with hb | hb
        · omega
        · omega
      have hcomm := localTo_comm (swapLoop_local t g n (s + g) (d - g))
        (swapStep_local t g s d) hdisj buf
      show swapLoop t g n (s + g) (d - g)
          (swapStep t g s d (swapLoop t g n (s + g) (d - g) (swapStep t g s d buf))) = buf
      rw [hcomm]
      have hB : ∀ i, swapLoop t g n (s + g) (d - g) buf i < 256 := by
        intro i
        by_cases hr : InRegion g n (s + g) (d - g) i
        · exact swapLoop_bounded t g ht n (s + g) (d - g) buf hbuf i
        · rw [swapLoop_outside t g n (s + g) (d - g) buf i hr]
          exact hbuf i
      have hstep2 : swapStep t g s d (swapStep t g s d (swapLoop t g n (s + g) (d - g) buf))
          = swapLoop t g n (s + g) (d - g) buf := by
        refine swapStep_invol t g s d _ hsd ?_
        intro j
        exact hinv _ (hB j)
      rw [hstep2]
      exact swapLoop_invol t g hinv ht n (s + g) (d - g) buf (Or.inr hstep.1) hbuf

/-- The row iteration is local to the union of the per-row regions. -/
theorem rowsFrom_local (f : Nat → (Nat → Nat) → Nat → Nat) (S : Nat → Nat → Prop)
    (hloc : ∀ y, LocalTo (S y) (f y)) :
    ∀ (cnt y0 : Nat), LocalTo (fun i => ∃ y, y0 ≤ y ∧ y < y0 + cnt ∧ S y i) (rowsFrom f y0 cnt)
  | 0, y0 =>
      ⟨fun _ _ _ => rfl, fun _ _ _ i hi => absurd hi (by
        rintro ⟨y, h1, h2, -⟩
        omega)⟩
  | cnt + 1, y0 => by
      have ih := rowsFrom_local f S hloc cnt (y0 + 1)
      constructor
      · intro buf i hi
        show rowsFrom f (y0 + 1) cnt (f y0 buf) i = buf i
        rw [ih.1 _ i (fun hex => hi (by
          obtain ⟨y, h1, h2, hS⟩ := hex
          exact ⟨y, by omega, by omega, hS⟩))]
        exact (hloc y0).1 buf i (fun hS => hi ⟨y0, le_refl _, by omega, hS⟩)
      · intro b1 b2 hag i hi
        show rowsFrom f (y0 + 1) cnt (f y0 b1) i = rowsFrom f (y0 + 1) cnt (f y0 b2) i
        have hfag : ∀ j, (∃ y, y0 + 1 ≤ y ∧ y < y0 + 1 + cnt ∧ S y j) ∨ S y0 j →
            f y0 b1 j = f y0 b2 j := by
          intro j hj
          by_cases hS0 : S y0 j
          · exact (hloc y0).2 b1 b2 (fun k hk => hag k ⟨y0, le_refl _, by omega, hk⟩) j hS0
          · rw [(hloc y0).1 b1 j hS0, (hloc y0).1 b2 j hS0]
            rcases hj with ⟨y, h1, h2, hS⟩ | hj
            · exact hag j ⟨y, by omega, by omega, hS⟩
            · exact absurd hj hS0
        by_cases hrec : ∃ y, y0 + 1 ≤ y ∧ y < y0 + 1 + cnt ∧ S y i
        · exact ih.2 _ _ (fun j hj => hfag j (Or.inl hj)) i hrec
        · rw [ih.1 _ i hrec, ih.1 _ i hrec]
          obtain ⟨y, h1, h2, hS⟩ := hi
          by_cases hy : y = y0
          · exact hfag i (Or.inr (hy ▸ hS))
          · exact hfag i (Or.inl ⟨y, by omega, by omega, hS⟩)

/-- The row iteration preserves byte-boundedness. -/
theorem rowsFrom_bounded (f : Nat → (Nat → Nat) → Nat → Nat)
    (hbnd : ∀ y buf, (∀ i, buf i < 256) → ∀ i, f y buf i < 256) :
    ∀ (cnt y0 : Nat) (buf : Nat → Nat), (∀ i, buf i < 256) → ∀ i, rowsFrom f y0 cnt buf i < 256
  | 0, _, _, hbuf, i => hbuf i
  | cnt + 1, y0, buf, hbuf, i =>
      rowsFrom_bounded f hbnd cnt (y0 + 1) (f y0 buf) (hbnd y0 buf hbuf) i

/-- The row iteration of per-row involutions on pairwise disjoint regions
is an involution on byte buffers. -/
theorem rowsFrom_invol (f : Nat → (Nat → Nat) → Nat → Nat) (S : Nat → Nat → Prop)
    (hloc : ∀ y, LocalTo (S y) (f y))
    (hinv : ∀ y buf, (∀ i, buf i < 256) → f y (f y buf) = buf)
    (hbnd : ∀ y buf, (∀ i, buf i < 256) → ∀ i, f y buf i < 256)
    (hdis : ∀ y1 y2, y1 ≠ y2 → ∀ i, S y1 i → S y2 i → False) :
    ∀ (cnt y0 : Nat) (buf : Nat → Nat), (∀ i, buf i < 256) →
      rowsFrom f y0 cnt (rowsFrom f y0 cnt buf) = buf
  | 0, _, _, _ => rfl
  | cnt + 1, y0, buf, hbuf => by
      show rowsFrom f (y0 + 1) cnt (f y0 (rowsFrom f (y0 + 1) cnt (f y0 buf))) = buf
      have hcomm := localTo_comm (rowsFrom_local f S hloc cnt (y0 + 1)) (hloc y0)
        (fun i hex hS0 => by
          obtain ⟨y, h1, h2, hS⟩ := hex
          exact hdis y y0 (by omega) i hS hS0) buf
      rw [hcomm]
      rw [hinv y0 _ (rowsFrom_bounded f hbnd cnt (y0 + 1) buf hbuf)]
      exact rowsFrom_invol f S hloc hinv hbnd hdis cnt (y0 + 1) buf hbuf

/-- A row iteration of zero-length swap loops does nothing. -/
theorem rowsFrom_swapZero (t : Nat → Nat) (g : Nat) (sfun dfun : Nat → Nat) :
    ∀ (cnt y0 : Nat) (buf : Nat → Nat),
      rowsFrom (fun y b => swapLoop t g 0 (sfun y) (dfun y) b) y0 cnt buf = buf
  | 0, _, _ => rfl
  | cnt + 1, y0, buf => rowsFrom_swapZero t g sfun dfun cnt (y0 + 1) buf

/-- Involutivity of the per-row inward swap pattern of `MirrorBMP`:
`n` swaps per row starting at the row base and at `rowbase + dOff`,
provided the groups stay separated and inside the row. -/
theorem rowSwap_invol (t : Nat → Nat) (g n dOff pitch h : Nat) (dfun : Nat → Nat)
    (hinv : ∀ v, v < 256 → t (t v) = v) (ht : ∀ v, v < 256 → t v < 256)
    (hd : ∀ y, dfun y = y * pitch + dOff)
    (hsep : 2 * n * g ≤ dOff + g)
    (hrow : dOff + g ≤ pitch)
    (buf : Nat → Nat) (hbuf : ∀ i, buf i < 256) :
    rowsFrom (fun y b => swapLoop t g n (y * pitch) (dfun y) b) 0 h
      (rowsFrom (fun y b => swapLoop t g n (y * pitch) (dfun y) b) 0 h buf) = buf := by
  have hfx : (fun y b => swapLoop t g n (y * pitch) (dfun y) b)
      = fun y b => swapLoop t g n (y * pitch) (y * pitch + dOff) b := by
    funext y b
    rw [hd y]
  rw [hfx]
  have hsepy : ∀ y : Nat, Sep g n (y * pitch) (y * pitch + dOff) := by
    intro y
    unfold Sep
    omega
  refine rowsFrom_invol _ (fun y i => InRegion g n (y * pitch) (y * pitch + dOff) i)
    (fun y => swapLoop_local t g n _ _)
    (fun y b hb => swapLoop_invol t g hinv ht n _ _ b (Or.inr (hsepy y)) hb)
    (fun y b hb i => swapLoop_bounded t g ht n _ _ b hb i)
    ?_ h 0 buf hbuf
  intro y1 y2 hne i hS1 hS2
  have h1 := inRegion_bound g n _ _ i (hsepy y1) hS1
  have h2 := inRegion_bound g n _ _ i (hsepy y2) hS2
  rcases Nat.lt_or_ge y1 y2 with hlt | hge
  · have : (y1 + 1) * pitch ≤ y2 * pitch := Nat.mul_le_mul_right _ (by omega)
    have hx : y1 * pitch + pitch = (y1 + 1) * pitch := by ring
    omega
  · have hlt2 : y2 < y1 := by omega
    have : (y2 + 1) * pitch ≤ y1 * pitch := Nat.mul_le_mul_right _ (by omega)
    have hx : y2 * pitch + pitch = (y2 + 1) * pitch := by ring
    omega

set_option maxRecDepth 4000 in
/-- The `ucMirror` table is a self-inverse byte permutation. -/
theorem mirrorByte_invol : ∀ v, v < 256 → mirrorByte (mirrorByte v) = v := by decide

set_option maxRecDepth 4000 in
/-- The `ucMirror` table maps bytes to bytes. -/
theorem mirrorByte_lt : ∀ v, v < 256 → mirrorByte v < 256 := by decide

set_option maxRecDepth 4000 in
/-- The nibble swap is a self-inverse byte permutation. -/
theorem nibbleSwap_invol : ∀ v, v < 256 → nibbleSwap (nibbleSwap v) = v := by decide

/-- The nibble swap maps any value to a byte. -/
theorem nibbleSwap_lt : ∀ v, v < 256 → nibbleSwap v < 256 := by
  intro v _
  exact Nat.mod_lt _ (by norm_num)

/-- Meaning of the `(p+3) & 0xfffc` alignment mask below the 16-bit
truncation threshold: clear the low two bits. -/
theorem land_fffc (v : Nat) (h : v < 65536) : v &&& 65532 = v - v % 4 := by
  have hR : v - v % 4 = v >>> 2 <<< 2 := by
    rw [Nat.shiftRight_eq_div_pow, Nat.shiftLeft_eq]
    omega
  rw [hR]
  apply Nat.eq_of_testBit_eq
  intro i
  rw [Nat.testBit_and, Nat.testBit_shiftLeft, Nat.testBit_shiftRight]
  by_cases h2 : i < 2
  · have h0 : (65532 : Nat).testBit i = false := by interval_cases i <;> decide
    rw [h0]
    simp [show ¬ (2 ≤ i) from by omega]
  · by_cases h3 : i < 16
    · have ht : (65532 : Nat).testBit i = true := by interval_cases i <;> decide
      rw [ht, show 2 + (i - 2) = i from by omega]
      simp [show (2 : Nat) ≤ i from by omega]
    · have hvi : v.testBit i = false := by
        apply Nat.testBit_lt_two_pow
        calc v < 65536 := h
          _ = 2 ^ 16 := by norm_num
          _ ≤ 2 ^ i := Nat.pow_le_pow_right (by norm_num) (by omega)
      have hvi2 : v.testBit (2 + (i - 2)) = false := by
        rw [show 2 + (i - 2) = i from by omega]
        exact hvi
      rw [hvi, hvi2]
      simp

/-- Value of the aligned pitch below the truncation threshold. -/
theorem alignDword_eq (p : Nat) (hp : p + 3 < 65536) :
    alignDword p = (p + 3) - (p + 3) % 4 := by
  unfold alignDword
  exact land_fffc (p + 3) hp

/-- A row iteration whose per-row operation does nothing does nothing. -/
theorem rowsFrom_congr_id (f : Nat → (Nat → Nat) → Nat → Nat) (hf : ∀ y b, f y b = b) :
    ∀ (cnt y0 : Nat) (buf : Nat → Nat), rowsFrom f y0 cnt buf = buf
  | 0, _, _ => rfl
  | cnt + 1, y0, buf => by
      show rowsFrom f (y0 + 1) cnt (f y0 buf) = buf
      rw [hf y0 buf]
      exact rowsFrom_congr_id f hf cnt (y0 + 1) buf

/-- A row iteration of zero-iteration swap loops does nothing. -/
theorem rowsFrom_swapLoop_zero (t : Nat → Nat) (g : Nat) (sf df : Nat → Nat)
    (cnt y0 : Nat) (buf : Nat → Nat) :
    rowsFrom (fun y b => swapLoop t g 0 (sf y) (df y) b) y0 cnt buf = buf :=
  rowsFrom_congr_id _ (fun _ _ => rfl) cnt y0 buf

/-- Vertical flip is an involution on byte buffers, for every depth. -/
theorem flipBMP_invol (w h bpp : Nat) (buf : Nat → Nat) (hbuf : ∀ i, buf i < 256) :
    FlipBMP w h bpp (FlipBMP w h bpp buf) = buf := by
  unfold FlipBMP
  apply swapLoop_invol id (bmpPitch w bpp) (fun v _ => rfl) (fun v hv => hv) (h / 2) 0 _ buf
    ?_ hbuf
  rcases Nat.eq_zero_or_pos (h / 2) with hz | hpos
  · exact Or.inl hz
  · right
    unfold Sep
    have h1 : 1 ≤ h := by omega
    obtain ⟨h0, rfl⟩ : ∃ h0, h = h0 + 1 := ⟨h - 1, by omega⟩
    rw [Nat.zero_add]
    calc 2 * ((h0 + 1) / 2) * bmpPitch w bpp
        ≤ (h0 + 1) * bmpPitch w bpp := Nat.mul_le_mul_right _ (by omega)
      _ = bmpPitch w bpp * (h0 + 1 - 1) + bmpPitch w bpp := by
          rw [Nat.add_sub_cancel]
          ring

/-- C9, counterexample.  The claim asserts that four 90° rotations
restore a 4-bpp buffer.  On the concrete 4×4 image `testImage44` four
rotations return a buffer whose byte 0 is 0 although the original byte 0
is 1: the transpose loop mis-addresses its scratch buffer (the pointer
`pTemp - y + (w-1)/2` moves below the allocation for `y ≥ 2`), so pixel
data is lost and the round trip fails. -/
theorem c9_counterexample :
    (RotateImage 90 ((RotateImage 90 ((RotateImage 90 ((RotateImage 90
        testImage44 4 4 4).1) 4 4 4).1) 4 4 4).1) 4 4 4).1 0 = 0 ∧
      testImage44 0 = 1 := by
  constructor
  · decide
  · decide

/-- C9, amended.  For every supported depth (1/4/8/24/32 bpp), every
byte-valued buffer and every width whose row pitch stays below the
16-bit truncation threshold of the alignment mask, the horizontal
mirror applied twice restores the buffer and the vertical flip applied
twice restores the buffer.  The third part of the original claim —
four 90° rotations restoring a 4-bpp buffer — is false (see the
counterexample): the 4-bpp transpose loses pixel data. -/
theorem c9_amended (bpp w h : Nat) (buf : Nat → Nat)
    (hbpp : bpp = 1 ∨ bpp = 4 ∨ bpp = 8 ∨ bpp = 24 ∨ bpp = 32)
    (hbuf : ∀ i, buf i < 256)
    (hpitch : (w * bpp + 7) / 8 + 3 < 65536) :
    MirrorBMP w h bpp (MirrorBMP w h bpp buf) = buf ∧
      FlipBMP w h bpp (FlipBMP w h bpp buf) = buf := by
  refine ⟨?_, flipBMP_invol w h bpp buf hbuf⟩
  have hal : bmpPitch w bpp = ((w * bpp + 7) / 8 + 3) - ((w * bpp + 7) / 8 + 3) % 4 := by
    unfold bmpPitch
    exact alignDword_eq _ hpitch
  rcases hbpp with rfl | rfl | rfl | rfl | rfl
  · -- 1 bpp
    simp only [MirrorBMP]
    by_cases hw8 : w % 8 = 0
    · rw [if_pos hw8, if_pos hw8]
      rcases Nat.eq_zero_or_pos (w >>> 4) with hn | hn
      · rw [hn, rowsFrom_swapLoop_zero, rowsFrom_swapLoop_zero]
      · exact rowSwap_invol mirrorByte 1 (w >>> 4) ((w >>> 3) - 1) (bmpPitch w 1) h
          (fun y => y * bmpPitch w 1 + (w >>> 3) - 1)
          mirrorByte_invol mirrorByte_lt
          (fun y => by beta_reduce; omega) (by omega) (by omega) buf hbuf
    · rw [if_neg hw8, if_neg hw8]
  · -- 4 bpp
    simp only [MirrorBMP]
    rcases Nat.eq_zero_or_pos (w >>> 2) with hn | hn
    · rw [hn, rowsFrom_swapLoop_zero, rowsFrom_swapLoop_zero]
    · exact rowSwap_invol nibbleSwap 1 (w >>> 2) ((w >>> 1) - 1) (bmpPitch w 4) h
        (fun y => y * bmpPitch w 4 + (w >>> 1) - 1)
        nibbleSwap_invol nibbleSwap_lt
        (fun y => by beta_reduce; omega) (by omega) (by omega) buf hbuf
  · -- 8 bpp
    simp only [MirrorBMP]
    rcases Nat.eq_zero_or_pos (w >>> 1) with hn | hn
    · rw [hn, rowsFrom_swapLoop_zero, rowsFrom_swapLoop_zero]
    · exact rowSwap_invol id 1 (w >>> 1) (w - 1) (bmpPitch w 8) h
        (fun y => y * bmpPitch w 8 + w - 1)
        (fun v _ => rfl) (fun v hv => hv)
        (fun y => by beta_reduce; omega) (by omega) (by omega) buf hbuf
  · -- 24 bpp
    simp only [MirrorBMP]
    rcases Nat.eq_zero_or_pos (w >>> 1) with hn | hn
    · rw [hn, rowsFrom_swapLoop_zero, rowsFrom_swapLoop_zero]
    · exact rowSwap_invol id 3 (w >>> 1) ((w - 1) * 3) (bmpPitch w 24) h
        (fun y => y * bmpPitch w 24 + (w - 1) * 3)
        (fun v _ => rfl) (fun v hv => hv)
        (fun y => rfl) (by omega) (by omega) buf hbuf
  · -- 32 bpp
    simp only [MirrorBMP]
    rcases Nat.eq_zero_or_pos (w >>> 1) with hn | hn
    · rw [hn, rowsFrom_swapLoop_zero, rowsFrom_swapLoop_zero]
    · exact rowSwap_invol id 4 (w >>> 1) ((w - 1) * 4) (bmpPitch w 32) h
        (fun y => y * bmpPitch w 32 + (w - 1) * 4)
        (fun v _ => rfl) (fun v hv => hv)
        (fun y => rfl) (by omega) (by omega) buf hbuf

/-- C9, witness: double mirror and double flip restore a concrete 3×2
8-bpp buffer. -/
theorem c9_witness :
    MirrorBMP 3 2 8 (MirrorBMP 3 2 8 (fun i => i % 256)) = (fun i => i % 256) ∧
      FlipBMP 3 2 8 (FlipBMP 3 2 8 (fun i => i % 256)) = (fun i => i % 256) :=
  c9_amended 8 3 2 (fun i => i % 256) (by tauto)
    (fun i => Nat.mod_lt _ (by norm_num)) (by norm_num)

/-- C6, code bug.  The claim (and §7 of the specification) state that
rotation by 90° on a depth without a transpose rule is reported as an
`UnsupportedTransformDepth` error before any output is produced.  The
implementation has no such error path: on a 2×2 8-bpp image rotated by
90°, `RotateImage` returns normally with the width/height swapped, every
pixel byte untouched, and the conversion then emits its full output
(here, 2 plane bytes from `MakeC_BW`). -/
theorem c6_theorem :
    (RotateImage 90 testImage22 2 2 8).2.1 = 2 ∧
      (RotateImage 90 testImage22 2 2 8).2.2 = 2 ∧
      ((List.range 8).all (fun i => (RotateImage 90 testImage22 2 2 8).1 i == testImage22 i))
        = true ∧
      (MakeC_BW (RotateImage 90 testImage22 2 2 8).1 2 2 8 palWhite).length = 2 := by
  refine ⟨by decide, by decide, by decide, by decide⟩

/-- C10, counterexample.  The claim states `RotateImage` at 90° swaps the
reported width and height.  The swap goes through a `uint8_t` temporary
(`uint8_t ... x` in `RotateImage`), so for a 300-pixel-wide 8-bpp image
the reported height after rotation is `300 % 256 = 44`, not 300. -/
theorem c10_counterexample :
    (RotateImage 90 (fun _ => 0) 300 2 8).2.2 = 44 := by decide

/-- C10, amended.  For every buffer of depth 1, 8, 24 or 32 bpp, calling
`RotateImage` with 90° leaves every byte of the pixel buffer unchanged
and reports no error, while swapping the reported width and height —
except that the new height is the old width reduced modulo 256 (it
passes through a `uint8_t` temporary). -/
theorem c10_amended (bpp w h : Nat) (px : Nat → Nat)
    (hbpp : bpp = 1 ∨ bpp = 8 ∨ bpp = 24 ∨ bpp = 32) :
    RotateImage 90 px w h bpp = (px, h, w % 256) := by
  rcases hbpp with rfl | rfl | rfl | rfl <;> rfl

/-- C10, witness: the amended theorem at a concrete 3×2 24-bpp buffer. -/
theorem c10_witness :
    RotateImage 90 (fun _ => 7) 3 2 24 = ((fun _ => 7), 2, 3 % 256) :=
  c10_amended 24 3 2 (fun _ => 7) (by tauto)

end EpdImage
